import Mathlib

/-!
# Team directory, service deletion, publisher and token storage

A shallow embedding of `account/team.go`, `api/services.go`,
`publisher/publisher.go` and `account/mongore/mongore.go` (`CreateToken`).

The package-level `store` handle of the Go code becomes an explicit pair of a
`Storable σ` (the operations) and a value of `σ` (the state of the backend).
Every method that mutates its receiver through a pointer returns the receiver
after the call next to the Go return value.
-/

namespace Apihub

/-! ## Errors -/

/-- The error values of package `errors` that the embedded code names. -/
inductive ErrorValue where
  | ErrTeamMissingRequiredFields
  | ErrTeamDuplicateEntry
  | ErrOnlyOwnerHasPermission
  | ErrUserNotInTeam
  | ErrRemoveOwnerFromTeam
  | ErrTeamNotFound
  | ErrUserNotFound
  | ErrServiceNotFound
  deriving DecidableEq, Repr

/-- A Go `error`. The three wrappers are the constructors of package `errors`
that the code calls; `Backend` stands for any failure a backend or an encoder
reports on its own. -/
inductive Error where
  | ValidationErrorNEW (e : ErrorValue)
  | ForbiddenErrorNEW (e : ErrorValue)
  | NotFoundErrorNEW (e : ErrorValue)
  | Backend (msg : String)
  deriving DecidableEq, Repr

/-! ## Entities -/

/-- The `User` entity: `Email` identifies it. -/
structure User where
  Email : String
  Password : String := ""
  deriving DecidableEq, Repr

/-- The `Team` struct of `account/team.go`. -/
structure Team where
  Name : String
  Alias : String
  Users : List String
  Owner : String
  deriving DecidableEq, Repr

/-- The `Service` entity, with the three fields the code reads. -/
structure Service where
  Subdomain : String
  Team : String
  Owner : String
  deriving DecidableEq, Repr

/-! ## Storage port -/

/-- The `Storable` interface over a backend state `σ`. Lookups read the state;
writes return the error (if any) and the state after the call. -/
structure Storable (σ : Type) where
  UpsertTeam : σ → Team → Option Error × σ
  DeleteTeam : σ → Team → Option Error × σ
  FindTeamByAlias : σ → String → Except Error Team
  FindUserByEmail : σ → String → Except Error User
  FindServiceBySubdomain : σ → String → Except Error Service
  DeleteService : σ → Service → Option Error × σ

/-- Modelled from the spec: `User.Exists` lives in `account/user.go`, which is
not among the sources. The spec says existence is checked by Email lookup
only; the shape follows `Team.Exists`. -/
def User.Exists {σ : Type} (st : Storable σ) (s : σ) (user : User) : Bool :=
  match st.FindUserByEmail s user.Email with
  | .error _ => false
  | .ok _ => true

/-! ## `account/team.go` -/

/-- The result of a `*Team` method: the returned error, the receiver after the
call, and the state of the store after the call. -/
structure TeamResult (σ : Type) where
  err : Option Error
  team : Team
  store : σ

/-- The method `Team.valid`. -/
def Team.valid (team : Team) : Bool :=
  if team.Name = "" then false else true

/-- The method `Team.Exists`. -/
def Team.Exists {σ : Type} (st : Storable σ) (s : σ) (team : Team) : Bool :=
  match st.FindTeamByAlias s team.Alias with
  | .error _ => false
  | .ok _ => true

/-- The method `Team.Create`. `GenerateSlug` is `utils.GenerateSlug` of the external
package `golang-utils`, taken as a parameter. -/
def Team.Create {σ : Type} (GenerateSlug : String → String) (st : Storable σ) (s : σ)
    (team : Team) (owner : User) : TeamResult σ :=
  if !team.valid then
    ⟨some (.ValidationErrorNEW .ErrTeamMissingRequiredFields), team, s⟩
  else
    let team := { team with Users := team.Users ++ [owner.Email] }
    let team := { team with Owner := owner.Email }
    let team :=
      if team.Alias = "" then { team with Alias := GenerateSlug team.Name }
      else { team with Alias := GenerateSlug team.Alias }
    if team.Exists st s then
      ⟨some (.ValidationErrorNEW .ErrTeamDuplicateEntry), team, s⟩
    else
      ⟨(st.UpsertTeam s team).1, team, (st.UpsertTeam s team).2⟩

/-- The method `Team.Delete` (value receiver): the returned error and the store after. -/
def Team.Delete {σ : Type} (st : Storable σ) (s : σ) (team : Team) (owner : User) :
    Option Error × σ :=
  if team.Owner ≠ owner.Email then
    (some (.ForbiddenErrorNEW .ErrOnlyOwnerHasPermission), s)
  else
    st.DeleteTeam s team

/-- The `for i, u := range team.Users` loop of `ContainsUser`, started at
position `i`: the position of the first entry equal to `email`. -/
def Team.ContainsUser.loop (email : String) : List String → Nat → Option Nat
  | [], _ => none
  | u :: rest, i => if u = email then some i else Team.ContainsUser.loop email rest (i + 1)

/-- The method `Team.ContainsUser`: position and error. -/
def Team.ContainsUser (team : Team) (user : User) : Int × Option Error :=
  match Team.ContainsUser.loop user.Email team.Users 0 with
  | some i => ((i : Int), none)
  | none => (-1, some (.ForbiddenErrorNEW .ErrUserNotInTeam))

/-- The loop of `AddUsers` over the batch; carries the team and `newUser`. -/
def Team.AddUsers.loop {σ : Type} (st : Storable σ) (s : σ) :
    List String → Team → Bool → Team × Bool
  | [], team, newUser => (team, newUser)
  | email :: rest, team, newUser =>
    let user : User := { Email := email }
    if !user.Exists st s then
      Team.AddUsers.loop st s rest team newUser
    else if (team.ContainsUser user).2 ≠ none then
      Team.AddUsers.loop st s rest { team with Users := team.Users ++ [user.Email] } true
    else
      Team.AddUsers.loop st s rest team newUser

/-- The method `Team.AddUsers`. -/
def Team.AddUsers {σ : Type} (st : Storable σ) (s : σ) (team : Team) (emails : List String) :
    TeamResult σ :=
  let r := Team.AddUsers.loop st s emails team false
  if r.2 then
    ⟨(st.UpsertTeam s r.1).1, r.1, (st.UpsertTeam s r.1).2⟩
  else
    ⟨none, r.1, s⟩

/-- The removal step of `RemoveUsers` at the position `i` that `ContainsUser`
returned: with `hi` the last position, overwrite position `i` by the last
entry when `hi > i`, then cut the slice to `Users[:hi]`. -/
def Team.removeAt (users : List String) (i : Nat) : List String :=
  let hi := users.length - 1
  let users := if hi > i then users.set i (users.getD hi "") else users
  users.take hi

/-- The variables `RemoveUsers` carries through its loop: the team,
`removedUsers`, and `err` (nil, or pointing at `errOwner`). -/
structure RemoveState where
  team : Team
  removedUsers : Bool
  err : Option Error

/-- The loop of `RemoveUsers` over the batch. -/
def Team.RemoveUsers.loop {σ : Type} (st : Storable σ) (s : σ) :
    List String → RemoveState → RemoveState
  | [], r => r
  | email :: rest, r =>
    if r.team.Owner = email then
      Team.RemoveUsers.loop st s rest
        { r with err := some (.ValidationErrorNEW .ErrRemoveOwnerFromTeam) }
    else
      let user : User := { Email := email }
      if !user.Exists st s then
        Team.RemoveUsers.loop st s rest r
      else
        let c := r.team.ContainsUser user
        if c.2 = none then
          Team.RemoveUsers.loop st s rest
            { r with team := { r.team with Users := Team.removeAt r.team.Users c.1.toNat },
                     removedUsers := true }
        else
          Team.RemoveUsers.loop st s rest r

/-- The method `Team.RemoveUsers`. -/
def Team.RemoveUsers {σ : Type} (st : Storable σ) (s : σ) (team : Team) (emails : List String) :
    TeamResult σ :=
  let r := Team.RemoveUsers.loop st s emails ⟨team, false, none⟩
  if r.removedUsers then
    ⟨(st.UpsertTeam s r.team).1, r.team, (st.UpsertTeam s r.team).2⟩
  else
    match r.err with
    | some e => ⟨some e, r.team, s⟩
    | none => ⟨none, r.team, s⟩

/-- The loop state after the removal step for a member `email`, found at its
first position. -/
def removeStep (r : RemoveState) (email : String) : RemoveState :=
  { r with team := { r.team with Users := Team.removeAt r.team.Users (r.team.Users.indexOf email) },
           removedUsers := true }

/-- An email is removable by a batch when it occurs in the batch, differs from
the owner and belongs to an existing user. -/
def removable {σ : Type} (st : Storable σ) (s : σ) (owner : String) (emails : List String)
    (u : String) : Bool :=
  decide (u ∈ emails) && decide (u ≠ owner) && User.Exists st s { Email := u }

/-- The entries of `users` that are not removable by the batch. -/
def retained {σ : Type} (st : Storable σ) (s : σ) (owner : String) (emails : List String)
    (users : List String) : List String :=
  users.filter (fun u => !removable st s owner emails u)

/-- An entry of a batch is addable to `users` when it belongs to an existing
user and is not in `users`. -/
def addable {σ : Type} (st : Storable σ) (s : σ) (users : List String) (u : String) : Bool :=
  User.Exists st s { Email := u } && decide (u ∉ users)

/-- The alias `Create` derives for a team: `GenerateSlug(Alias)` when `Alias`
is non-empty, `GenerateSlug(Name)` otherwise. -/
def derivedAlias (GenerateSlug : String → String) (team : Team) : String :=
  if team.Alias = "" then GenerateSlug team.Name else GenerateSlug team.Alias

/-! ## `api/services.go` -/

/-- A response of package `api`, named after the helper that builds it (`OK`,
`Created`, `BadRequest`, `Forbidden`) and holding the arguments of the call. -/
inductive HTTPResponse where
  | OK (payload : String)
  | Created (payload : String)
  | BadRequest (errorType : String) (message : String)
  | Forbidden (errorType : String) (message : String)
  deriving DecidableEq, Repr

/-- The request context `web.C`: `URLParams` (a Go map, absent keys read as the
empty string) and the environment `Env`. -/
structure C (ε : Type) where
  URLParams : String → String
  Env : ε

/-- The pieces `DeleteService` uses whose declarations are not among the
sources, taken as parameters: `handler.getCurrentUser`, the `Error()` text of
an error and of a named error value, `json.Marshal` on a service, and the two
error-type constants. -/
structure ServicesHandler (ε : Type) where
  getCurrentUser : C ε → Except Error User
  errorText : Error → String
  valueText : ErrorValue → String
  marshal : Service → String
  E_BAD_REQUEST : String
  E_FORBIDDEN_REQUEST : String

/-- Modelled from the spec: `account.FindServiceBySubdomain` is not among the
sources; the spec calls it a pure lookup, and it has the shape of
`FindTeamByAlias` in `account/team.go`. -/
def FindServiceBySubdomain {σ : Type} (st : Storable σ) (s : σ) (subdomain : String) :
    Except Error Service :=
  match st.FindServiceBySubdomain s subdomain with
  | .error err => .error err
  | .ok service => .ok service

/-- Modelled from the spec: `Service.Delete` is not among the sources; it
deletes the service through the storage port. -/
def Service.Delete {σ : Type} (st : Storable σ) (s : σ) (service : Service) : Option Error × σ :=
  st.DeleteService s service

/-- The method `ServicesHandler.DeleteService`: the response and the store after. The
condition `err != nil || service.Owner != currentUser.Email` is the first two
branches after the lookup. -/
def ServicesHandler.DeleteService {ε σ : Type} (handler : ServicesHandler ε) (st : Storable σ)
    (s : σ) (c : C ε) : HTTPResponse × σ :=
  match handler.getCurrentUser c with
  | .error err => (.BadRequest handler.E_BAD_REQUEST (handler.errorText err), s)
  | .ok currentUser =>
    match FindServiceBySubdomain st s (c.URLParams "subdomain") with
    | .error _ =>
      (.Forbidden handler.E_FORBIDDEN_REQUEST (handler.valueText .ErrServiceNotFound), s)
    | .ok service =>
      if service.Owner ≠ currentUser.Email then
        (.Forbidden handler.E_FORBIDDEN_REQUEST (handler.valueText .ErrServiceNotFound), s)
      else
        match service.Delete st s with
        | (some err, s1) => (.BadRequest handler.E_BAD_REQUEST (handler.errorText err), s1)
        | (none, s1) => (.OK (handler.marshal service), s1)

/-! ## `publisher/publisher.go` -/

/-- The `apihub.ServiceSpec` descriptor: `Handle` is the only field `Publish`
reads; `Rest` stands for the remaining fields, declared outside the sources. -/
structure ServiceSpec (α : Type) where
  Handle : String
  Rest : α

/-- The `api.KVPair` of the consul client, with the two fields `Publish` sets. -/
structure KVPair where
  Key : String
  Value : List Nat
  deriving DecidableEq, Repr

/-- The consul client over a registry state `κ`: `KV().Put`. -/
structure Client (κ : Type) where
  Put : κ → KVPair → Option Error × κ

/-- The method `Publisher.Publish`: the returned error and the registry after. `marshal`
is `json.Marshal` on a spec; the log calls have no effect on either. -/
def Publisher.Publish {α κ : Type} (marshal : ServiceSpec α → Except Error (List Nat))
    (client : Client κ) (registry : κ) (serviceSpec : ServiceSpec α) : Option Error × κ :=
  match marshal serviceSpec with
  | .error err => (some err, registry)
  | .ok spec =>
    let kvp : KVPair := { Key := serviceSpec.Handle, Value := spec }
    client.Put registry kvp

/-- The coordination store as a map from keys to bytes. -/
abbrev Registry := String → Option (List Nat)

/-- A client over the map whose `Put` always succeeds and overwrites the key. -/
def mapClient : Client Registry where
  Put := fun registry kvp =>
    (none, fun k => if k = kvp.Key then some kvp.Value else registry k)

/-! ## `account/mongore/mongore.go`: `CreateToken` -/

/-- The `account.TokenInfo` record; `Expires` is an integer count, and
`TokenType` is the field `Type` of the Go struct. -/
structure TokenInfo where
  Token : String
  TokenType : String
  User : User
  Expires : Int
  deriving DecidableEq, Repr

/-- A signed 64-bit integer holding `x`, as Go wraps it. -/
def wrapInt64 (x : Int) : Int :=
  (x + 2 ^ 63) % 2 ^ 64 - 2 ^ 63

/-- The conversion `time.Duration(x)`: a count of nanoseconds in an `int64`. -/
def Duration (x : Int) : Int := wrapInt64 x

/-- The constant `time.Minute`, in nanoseconds. -/
def Minute : Int := 60 * 1000000000

/-- A call on package `db`: `db.Cache.Set(key, nil, ttl)` or
`db.HMSET(key, expires, fields)`. -/
inductive DbCall where
  | CacheSet (key : String) (ttl : Int)
  | HMSET (key : String) (expires : Int)
  deriving DecidableEq, Repr

/-- The method `Mongore.CreateToken`: the calls it makes on package `db`, in order. -/
def Mongore.CreateToken (token : TokenInfo) : List DbCall :=
  let key := token.TokenType ++ ": " ++ token.User.Email
  [ .CacheSet key (wrapInt64 (Duration token.Expires * Minute)),
    .HMSET key token.Expires,
    .CacheSet token.Token (Duration token.Expires),
    .HMSET token.Token token.Expires ]

/-- The expiry that a sequence of calls leaves on the cache record `key`: the
duration of the last `Cache.Set` on that key. -/
def cacheTTL (key : String) : List DbCall → Option Int
  | [] => none
  | .CacheSet k ttl :: rest =>
    match cacheTTL key rest with
    | some later => some later
    | none => if k = key then some ttl else none
  | .HMSET _ _ :: rest => cacheTTL key rest

/-! ## A store in memory -/

/-- The state of a store that keeps its documents in lists. -/
structure MemoryState where
  users : List User
  teams : List Team
  services : List Service
  deriving DecidableEq, Repr

/-- A store in memory with the behaviour of `mongore`: upserts are keyed by
alias, lookups and deletions report not-found. -/
def memoryStore : Storable MemoryState where
  UpsertTeam := fun s t =>
    (none, { s with teams := t :: s.teams.filter (fun x => decide (x.Alias ≠ t.Alias)) })
  DeleteTeam := fun s t =>
    if t ∈ s.teams then (none, { s with teams := s.teams.erase t })
    else (some (.NotFoundErrorNEW .ErrTeamNotFound), s)
  FindTeamByAlias := fun s key =>
    match s.teams.find? (fun t => decide (t.Alias = key)) with
    | some t => .ok t
    | none => .error (.NotFoundErrorNEW .ErrTeamNotFound)
  FindUserByEmail := fun s email =>
    match s.users.find? (fun u => decide (u.Email = email)) with
    | some u => .ok u
    | none => .error (.NotFoundErrorNEW .ErrUserNotFound)
  FindServiceBySubdomain := fun s subdomain =>
    match s.services.find? (fun x => decide (x.Subdomain = subdomain)) with
    | some x => .ok x
    | none => .error (.NotFoundErrorNEW .ErrServiceNotFound)
  DeleteService := fun s x =>
    if x ∈ s.services then (none, { s with services := s.services.erase x })
    else (some (.NotFoundErrorNEW .ErrServiceNotFound), s)

/-- A slug function for examples: lower-case, blanks become dashes. -/
def exampleSlug (x : String) : String :=
  String.mk (x.data.map (fun ch => if ch = Char.ofNat 32 then Char.ofNat 45 else ch.toLower))

/-- A store state with two users, no team and one service. -/
def exampleState : MemoryState :=
  { users := [{ Email := "a@x.com" }, { Email := "b@x.com" }],
    teams := [],
    services := [{ Subdomain := "billing", Team := "acme", Owner := "b@x.com" }] }

/-- A team owned by `a@x.com` with members `a@x.com`, `b@x.com` and `c@x.com`. -/
def exampleTeam : Team :=
  { Name := "Acme", Alias := "acme", Users := ["a@x.com", "b@x.com", "c@x.com"],
    Owner := "a@x.com" }

/-- A handler for examples: the current user is read from the environment. -/
def exampleHandler : ServicesHandler (Option User) where
  getCurrentUser := fun c =>
    match c.Env with
    | some u => .ok u
    | none => .error (.Backend "no user in the request")
  errorText := fun _ => "error"
  valueText := fun _ => "Service not found."
  marshal := fun service => service.Subdomain
  E_BAD_REQUEST := "bad_request"
  E_FORBIDDEN_REQUEST := "access_denied"

/-- A request by `user` whose `subdomain` parameter is `subdomain`. -/
def exampleRequest (user : User) (subdomain : String) : C (Option User) :=
  { URLParams := fun k => if k = "subdomain" then subdomain else "", Env := some user }

/-- An encoder for examples: the code points of the handle, then the rest. -/
def exampleMarshal (spec : ServiceSpec (List Nat)) : Except Error (List Nat) :=
  .ok (spec.Handle.data.map Char.toNat ++ spec.Rest)

/-! ## Lemmas on the list operations -/

theorem containsLoop_eq (email : String) (l : List String) (i : Nat) :
    Team.ContainsUser.loop email l i
      = if email ∈ l then some (i + l.indexOf email) else none := by
  induction l generalizing i with
  | nil => simp [Team.ContainsUser.loop]
  | cons u rest ih =>
    by_cases h : u = email
    · subst h
      simp [Team.ContainsUser.loop]
    · have h2 : ¬ email = u := fun e => h e.symm
      simp [Team.ContainsUser.loop, h, h2, ih, List.indexOf_cons_ne _ h]
      split
      · simp; omega
      · simp

theorem containsUser_of_mem (team : Team) (user : User) (h : user.Email ∈ team.Users) :
    team.ContainsUser user = (((team.Users.indexOf user.Email : Nat) : Int), none) := by
  simp [Team.ContainsUser, containsLoop_eq, h]

theorem containsUser_of_not_mem (team : Team) (user : User) (h : user.Email ∉ team.Users) :
    team.ContainsUser user = (-1, some (.ForbiddenErrorNEW .ErrUserNotInTeam)) := by
  simp [Team.ContainsUser, containsLoop_eq, h]

theorem set_perm_cons_eraseIdx (y : String) (t : List String) (i : Nat) (h : i < t.length) :
    (t.set i y).Perm (y :: t.eraseIdx i) := by
  induction t generalizing i with
  | nil => simp at h
  | cons x xs ih =>
    cases i with
    | zero => simp
    | succ j =>
      have hj : j < xs.length := by simpa using h
      simp only [List.set_cons_succ, List.eraseIdx_cons_succ]
      exact ((ih j hj).cons x).trans (List.Perm.swap y x _)

theorem removeAt_perm (l : List String) (i : Nat) (h : i < l.length) :
    (Team.removeAt l i).Perm (l.eraseIdx i) := by
  have hne : l ≠ [] := by rintro rfl; simp at h
  obtain ⟨t, y, rfl⟩ : ∃ t y, l = t ++ [y] :=
    ⟨l.dropLast, l.getLast hne, (List.dropLast_append_getLast hne).symm⟩
  have hlen : (t ++ [y]).length - 1 = t.length := by simp
  unfold Team.removeAt
  simp only [hlen]
  by_cases hi : t.length > i
  · have hget : (t ++ [y]).getD t.length "" = y := by simp [List.getD]
    rw [if_pos hi, hget, List.set_append_left _ _ hi, List.eraseIdx_append_of_lt_length hi]
    have : (t.set i y ++ [y]).take t.length = t.set i y := by
      simp
    rw [this]
    exact (set_perm_cons_eraseIdx y t i hi).trans (List.perm_append_singleton y _).symm
  · have hieq : i = t.length := by simp at h; omega
    subst hieq
    rw [if_neg hi]
    have h1 : (t ++ [y]).take t.length = t := by simp
    have h2 : (t ++ [y]).eraseIdx t.length = t := by
      rw [List.eraseIdx_append_of_length_le (Nat.le_refl _)]; simp
    rw [h1, h2]

theorem removeAt_indexOf_perm (l : List String) (e : String) (h : e ∈ l) :
    (Team.removeAt l (l.indexOf e)).Perm (l.erase e) := by
  have := removeAt_perm l (l.indexOf e) (List.indexOf_lt_length.2 h)
  rwa [List.eraseIdx_indexOf_eq_erase] at this

/-! ## The loops of `AddUsers` and `RemoveUsers`, case by case -/

theorem removeLoop_cons {σ : Type} (st : Storable σ) (s : σ) (email : String)
    (rest : List String) (r : RemoveState) :
    Team.RemoveUsers.loop st s (email :: rest) r
      = if r.team.Owner = email then
          Team.RemoveUsers.loop st s rest
            { r with err := some (.ValidationErrorNEW .ErrRemoveOwnerFromTeam) }
        else if User.Exists st s { Email := email } = true ∧ email ∈ r.team.Users then
          Team.RemoveUsers.loop st s rest (removeStep r email)
        else Team.RemoveUsers.loop st s rest r := by
  rw [Team.RemoveUsers.loop]
  by_cases ho : r.team.Owner = email
  · simp [ho]
  · by_cases hex : User.Exists st s { Email := email } = true
    · by_cases hm : email ∈ r.team.Users
      · have hc := containsUser_of_mem r.team { Email := email } hm
        simp [ho, hex, hm, hc, removeStep]
      · have hc := containsUser_of_not_mem r.team { Email := email } hm
        simp [ho, hex, hm, hc]
    · simp [ho, hex]

theorem removeLoop_owner {σ : Type} (st : Storable σ) (s : σ) (emails : List String)
    (r : RemoveState) :
    (Team.RemoveUsers.loop st s emails r).team.Owner = r.team.Owner := by
  induction emails generalizing r with
  | nil => simp [Team.RemoveUsers.loop]
  | cons e rest ih =>
    rw [removeLoop_cons]
    split_ifs <;> simp [ih, removeStep]

theorem removeLoop_err {σ : Type} (st : Storable σ) (s : σ) (emails : List String)
    (r : RemoveState) :
    (Team.RemoveUsers.loop st s emails r).err
      = if r.team.Owner ∈ emails then some (.ValidationErrorNEW .ErrRemoveOwnerFromTeam)
        else r.err := by
  induction emails generalizing r with
  | nil => simp [Team.RemoveUsers.loop]
  | cons e rest ih =>
    rw [removeLoop_cons]
    split_ifs with h1 h2 h3 <;> simp_all [removeStep]

theorem removeStep_perm (r : RemoveState) (e : String) (h : e ∈ r.team.Users) :
    (removeStep r e).team.Users.Perm (r.team.Users.erase e) :=
  removeAt_indexOf_perm r.team.Users e h

theorem removeStep_length (r : RemoveState) (e : String) (h : e ∈ r.team.Users) :
    (removeStep r e).team.Users.length + 1 = r.team.Users.length := by
  rw [(removeStep_perm r e h).length_eq, List.length_erase_of_mem h]
  have := List.length_pos_of_mem h
  omega

theorem removeLoop_length_le {σ : Type} (st : Storable σ) (s : σ) (emails : List String)
    (r : RemoveState) :
    (Team.RemoveUsers.loop st s emails r).team.Users.length ≤ r.team.Users.length := by
  induction emails generalizing r with
  | nil => simp [Team.RemoveUsers.loop]
  | cons e rest ih =>
    rw [removeLoop_cons]
    split_ifs with h1 h2
    · exact ih _
    · have := ih (removeStep r e)
      have := removeStep_length r e h2.2
      omega
    · exact ih _

theorem removeLoop_flag_mono {σ : Type} (st : Storable σ) (s : σ) (emails : List String)
    (r : RemoveState) (h : r.removedUsers = true) :
    (Team.RemoveUsers.loop st s emails r).removedUsers = true := by
  induction emails generalizing r with
  | nil => simpa [Team.RemoveUsers.loop] using h
  | cons e rest ih =>
    rw [removeLoop_cons]
    split_ifs
    · exact ih _ h
    · exact ih _ rfl
    · exact ih _ h

/-- The flag `removedUsers` is set exactly when the list got shorter. -/
theorem removeLoop_flag_iff {σ : Type} (st : Storable σ) (s : σ) (emails : List String)
    (r : RemoveState) (h : r.removedUsers = false) :
    ((Team.RemoveUsers.loop st s emails r).removedUsers = true
        → (Team.RemoveUsers.loop st s emails r).team.Users.length < r.team.Users.length)
      ∧ ((Team.RemoveUsers.loop st s emails r).removedUsers = false
        → (Team.RemoveUsers.loop st s emails r).team = r.team) := by
  induction emails generalizing r with
  | nil => simp [Team.RemoveUsers.loop, h]
  | cons e rest ih =>
    rw [removeLoop_cons]
    split_ifs with h1 h2
    · exact ih _ h
    · have hlen := removeLoop_length_le st s rest (removeStep r e)
      have hstep := removeStep_length r e h2.2
      have hflag := removeLoop_flag_mono st s rest (removeStep r e) rfl
      refine ⟨fun _ => by omega, fun hf => ?_⟩
      rw [hflag] at hf
      cases hf
    · exact ih _ h

theorem removeLoop_owner_mem {σ : Type} (st : Storable σ) (s : σ) (emails : List String)
    (r : RemoveState) (h : r.team.Owner ∈ r.team.Users) :
    (Team.RemoveUsers.loop st s emails r).team.Owner
      ∈ (Team.RemoveUsers.loop st s emails r).team.Users := by
  induction emails generalizing r with
  | nil => simpa [Team.RemoveUsers.loop] using h
  | cons e rest ih =>
    rw [removeLoop_cons]
    split_ifs with h1 h2
    · exact ih _ h
    · apply ih
      have hp := removeStep_perm r e h2.2
      have : (removeStep r e).team.Owner = r.team.Owner := rfl
      rw [this, hp.mem_iff]
      exact (List.mem_erase_of_ne h1).2 h
    · exact ih _ h

theorem removeLoop_perm {σ : Type} (st : Storable σ) (s : σ) (emails : List String)
    (r : RemoveState) (h : r.team.Users.Nodup) :
    (Team.RemoveUsers.loop st s emails r).team.Users.Perm
      (retained st s r.team.Owner emails r.team.Users) := by
  induction emails generalizing r with
  | nil => simp [Team.RemoveUsers.loop, retained, removable]
  | cons e rest ih =>
    rw [removeLoop_cons]
    split_ifs with h1 h2
    · have hi := ih { r with err := some (.ValidationErrorNEW .ErrRemoveOwnerFromTeam) } h
      refine hi.trans (List.Perm.of_eq ?_)
      simp only [retained, removable]
      apply List.filter_congr
      intro u _
      by_cases hu : u = e
      · subst hu; simp [h1]
      · simp [hu]
    · have hp := removeStep_perm r e h2.2
      have hnd : (removeStep r e).team.Users.Nodup := hp.nodup_iff.2 (h.erase e)
      have ho : (removeStep r e).team.Owner = r.team.Owner := rfl
      have hi := ih (removeStep r e) hnd
      rw [ho] at hi
      refine hi.trans ?_
      refine (hp.filter _).trans (List.Perm.of_eq ?_)
      rw [h.erase_eq_filter, List.filter_filter]
      simp only [retained, removable]
      apply List.filter_congr
      intro u _
      by_cases hu : u = e
      · subst hu
        have h1' : ¬ u = r.team.Owner := fun e => h1 e.symm
        simp [h1', h2.1]
      · simp [hu]
    · refine (ih r h).trans (List.Perm.of_eq ?_)
      simp only [retained, removable]
      apply List.filter_congr
      intro u hu'
      by_cases hu : u = e
      · subst hu
        have : User.Exists st s { Email := u } = false := by
          simpa [hu'] using h2
        simp [this]
      · simp [hu]

theorem addLoop_cons {σ : Type} (st : Storable σ) (s : σ) (email : String)
    (rest : List String) (team : Team) (newUser : Bool) :
    Team.AddUsers.loop st s (email :: rest) team newUser
      = if addable st s team.Users email = true then
          Team.AddUsers.loop st s rest { team with Users := team.Users ++ [email] } true
        else Team.AddUsers.loop st s rest team newUser := by
  rw [Team.AddUsers.loop]
  by_cases hex : User.Exists st s { Email := email } = true
  · by_cases hm : email ∈ team.Users
    · have hc := containsUser_of_mem team { Email := email } hm
      simp [hex, hm, hc, addable]
    · have hc := containsUser_of_not_mem team { Email := email } hm
      simp [hex, hm, hc, addable]
  · simp [hex, addable]

theorem addLoop_owner {σ : Type} (st : Storable σ) (s : σ) (emails : List String)
    (team : Team) (newUser : Bool) :
    (Team.AddUsers.loop st s emails team newUser).1.Owner = team.Owner := by
  induction emails generalizing team newUser with
  | nil => simp [Team.AddUsers.loop]
  | cons e rest ih =>
    rw [addLoop_cons]
    split_ifs <;> simp [ih]

/-- The loop only appends: the list after is the list before followed by
entries of the batch that belong to existing users. -/
theorem addLoop_appends {σ : Type} (st : Storable σ) (s : σ) (emails : List String)
    (team : Team) (newUser : Bool) :
    ∃ added : List String,
      (Team.AddUsers.loop st s emails team newUser).1.Users = team.Users ++ added
        ∧ ∀ u ∈ added, u ∈ emails ∧ User.Exists st s { Email := u } = true := by
  induction emails generalizing team newUser with
  | nil => exact ⟨[], by simp [Team.AddUsers.loop]⟩
  | cons e rest ih =>
    rw [addLoop_cons]
    split_ifs with h
    · obtain ⟨added, h1, h2⟩ := ih { team with Users := team.Users ++ [e] } true
      refine ⟨e :: added, by simpa using h1, ?_⟩
      intro u hu
      rcases List.mem_cons.1 hu with rfl | hu
      · simp only [addable, Bool.and_eq_true] at h
        exact ⟨List.mem_cons_self _ _, h.1⟩
      · exact ⟨List.mem_cons_of_mem _ (h2 u hu).1, (h2 u hu).2⟩
    · obtain ⟨added, h1, h2⟩ := ih team newUser
      exact ⟨added, h1, fun u hu => ⟨List.mem_cons_of_mem _ (h2 u hu).1, (h2 u hu).2⟩⟩

theorem addable_append {σ : Type} (st : Storable σ) (s : σ) (users : List String)
    (e u : String) :
    addable st s (users ++ [e]) u = (addable st s users u && decide (u ≠ e)) := by
  simp only [addable, List.mem_append, List.mem_singleton, not_or]
  by_cases h1 : u ∈ users <;> by_cases h2 : u = e <;> simp [h1, h2]

theorem addLoop_length {σ : Type} (st : Storable σ) (s : σ) (emails : List String)
    (team : Team) (newUser : Bool) :
    (Team.AddUsers.loop st s emails team newUser).1.Users.length
      = team.Users.length + ((emails.filter (addable st s team.Users)).toFinset).card := by
  induction emails generalizing team newUser with
  | nil => simp [Team.AddUsers.loop]
  | cons e rest ih =>
    rw [addLoop_cons]
    split_ifs with h
    · rw [ih, List.filter_cons_of_pos h]
      have hset : (rest.filter (addable st s (team.Users ++ [e]))).toFinset
          = ((rest.filter (addable st s team.Users)).toFinset).erase e := by
        ext u
        simp only [List.mem_toFinset, List.mem_filter, Finset.mem_erase, addable_append,
          Bool.and_eq_true, decide_eq_true_eq]
        tauto
      simp only [hset, List.length_append, List.length_singleton, List.toFinset_cons]
      have hins : insert e ((rest.filter (addable st s team.Users)).toFinset)
          = insert e (((rest.filter (addable st s team.Users)).toFinset).erase e) := by
        ext u
        simp only [Finset.mem_insert, Finset.mem_erase]
        tauto
      rw [hins, Finset.card_insert_of_not_mem (Finset.not_mem_erase _ _)]
      omega
    · rw [ih, List.filter_cons_of_neg h]

theorem removeUsers_team {σ : Type} (st : Storable σ) (s : σ) (team : Team)
    (emails : List String) :
    (team.RemoveUsers st s emails).team
      = (Team.RemoveUsers.loop st s emails ⟨team, false, none⟩).team := by
  unfold Team.RemoveUsers
  simp only
  split
  · rfl
  · split <;> rfl

theorem addUsers_team {σ : Type} (st : Storable σ) (s : σ) (team : Team)
    (emails : List String) :
    (team.AddUsers st s emails).team = (Team.AddUsers.loop st s emails team false).1 := by
  unfold Team.AddUsers
  simp only
  split <;> rfl

/-! ## Claims -/

/-- C1: over a store whose `UpsertTeam` succeeds, `RemoveUsers` returns no
error when the call removed a member (the `Users` list changed), also when the
batch contains the Owner; when nothing was removed it returns
`ValidationError(RemoveOwnerFromTeam)` if the batch contains the Owner and no
error otherwise. -/
theorem removeUsers_return {σ : Type} (st : Storable σ) (s : σ) (team : Team)
    (emails : List String) (hup : ∀ s t, (st.UpsertTeam s t).1 = none) :
    ((team.RemoveUsers st s emails).team.Users ≠ team.Users
        → (team.RemoveUsers st s emails).err = none)
      ∧ ((team.RemoveUsers st s emails).team.Users = team.Users → team.Owner ∈ emails
        → (team.RemoveUsers st s emails).err
            = some (.ValidationErrorNEW .ErrRemoveOwnerFromTeam))
      ∧ ((team.RemoveUsers st s emails).team.Users = team.Users → team.Owner ∉ emails
        → (team.RemoveUsers st s emails).err = none) := by
  have hflag := removeLoop_flag_iff st s emails ⟨team, false, none⟩ rfl
  have herr := removeLoop_err st s emails ⟨team, false, none⟩
  simp only at hflag herr
  unfold Team.RemoveUsers
  simp only
  cases hr : (Team.RemoveUsers.loop st s emails ⟨team, false, none⟩).removedUsers with
  | true =>
    have hlt := hflag.1 hr
    simp only [if_true]
    refine ⟨fun _ => hup _ _, fun h => ?_, fun h => ?_⟩ <;>
      · rw [h] at hlt
        exact absurd hlt (Nat.lt_irrefl _)
  | false =>
    have hteam := hflag.2 hr
    simp only [Bool.false_eq_true, if_false]
    refine ⟨fun h => ?_, fun _ ho => ?_, fun _ ho => ?_⟩
    · exfalso
      apply h
      split <;> simp [hteam]
    · rw [herr, if_pos ho]
    · rw [herr, if_neg ho]

theorem removeUsers_return_witness :
    (exampleTeam.RemoveUsers memoryStore exampleState ["a@x.com", "b@x.com"]).err = none
      ∧ (exampleTeam.RemoveUsers memoryStore exampleState ["a@x.com", "z@x.com"]).err
          = some (.ValidationErrorNEW .ErrRemoveOwnerFromTeam)
      ∧ (exampleTeam.RemoveUsers memoryStore exampleState ["z@x.com"]).err = none :=
  ⟨(removeUsers_return memoryStore exampleState exampleTeam ["a@x.com", "b@x.com"]
      (fun _ _ => rfl)).1 (by decide),
   (removeUsers_return memoryStore exampleState exampleTeam ["a@x.com", "z@x.com"]
      (fun _ _ => rfl)).2.1 (by decide) (by decide),
   (removeUsers_return memoryStore exampleState exampleTeam ["z@x.com"]
      (fun _ _ => rfl)).2.2 (by decide) (by decide)⟩

/-- C2: for a team whose `Users` list has no duplicates, the `Users` list after
`RemoveUsers` is a permutation of the list before with every removable email
filtered out (removable: in the batch, different from the Owner, belonging to
an existing user); every member that is not removable is retained. -/
theorem removeUsers_members {σ : Type} (st : Storable σ) (s : σ) (team : Team)
    (emails : List String) (hnd : team.Users.Nodup) :
    (team.RemoveUsers st s emails).team.Users.Perm
        (team.Users.filter (fun u => !removable st s team.Owner emails u))
      ∧ ∀ u ∈ team.Users, removable st s team.Owner emails u = false
          → u ∈ (team.RemoveUsers st s emails).team.Users := by
  have hp := removeLoop_perm st s emails ⟨team, false, none⟩ hnd
  rw [← removeUsers_team] at hp
  refine ⟨hp, fun u hu hr => ?_⟩
  rw [hp.mem_iff]
  simp only [retained, List.mem_filter]
  exact ⟨hu, by simp [hr]⟩

theorem removeUsers_members_witness :
    (exampleTeam.RemoveUsers memoryStore exampleState
        ["b@x.com", "a@x.com", "c@x.com", "b@x.com"]).team.Users.Perm
      (exampleTeam.Users.filter (fun u =>
        !removable memoryStore exampleState exampleTeam.Owner
          ["b@x.com", "a@x.com", "c@x.com", "b@x.com"] u)) :=
  (removeUsers_members memoryStore exampleState exampleTeam
    ["b@x.com", "a@x.com", "c@x.com", "b@x.com"] (by decide)).1

/-- C3: the Owner is an element of `Users` after every `Create` that passes
validation, and `AddUsers` and `RemoveUsers` keep the Owner in `Users`, for
every batch of emails and every store. -/
theorem owner_member_invariant {σ : Type} (GenerateSlug : String → String) (st : Storable σ)
    (s : σ) (team : Team) (owner : User) (emails : List String) :
    (team.valid = true →
        (team.Create GenerateSlug st s owner).team.Owner
          ∈ (team.Create GenerateSlug st s owner).team.Users)
      ∧ (team.Owner ∈ team.Users →
          (team.AddUsers st s emails).team.Owner ∈ (team.AddUsers st s emails).team.Users)
      ∧ (team.Owner ∈ team.Users →
          (team.RemoveUsers st s emails).team.Owner
            ∈ (team.RemoveUsers st s emails).team.Users) := by
  refine ⟨fun hv => ?_, fun h => ?_, fun h => ?_⟩
  · unfold Team.Create
    simp only [hv, Bool.not_true, Bool.false_eq_true, if_false]
    split_ifs <;> simp
  · rw [addUsers_team, addLoop_owner]
    obtain ⟨added, h1, _⟩ := addLoop_appends st s emails team false
    rw [h1]
    exact List.mem_append_left _ h
  · rw [removeUsers_team]
    exact removeLoop_owner_mem st s emails ⟨team, false, none⟩ h

theorem owner_member_invariant_witness :
    (exampleTeam.Create exampleSlug memoryStore exampleState { Email := "d@x.com" }).team.Owner
        ∈ (exampleTeam.Create exampleSlug memoryStore exampleState
            { Email := "d@x.com" }).team.Users
      ∧ (exampleTeam.AddUsers memoryStore exampleState ["c@x.com", "a@x.com"]).team.Owner
        ∈ (exampleTeam.AddUsers memoryStore exampleState ["c@x.com", "a@x.com"]).team.Users
      ∧ (exampleTeam.RemoveUsers memoryStore exampleState ["c@x.com", "a@x.com"]).team.Owner
        ∈ (exampleTeam.RemoveUsers memoryStore exampleState ["c@x.com", "a@x.com"]).team.Users :=
  ⟨(owner_member_invariant exampleSlug memoryStore exampleState exampleTeam
      { Email := "d@x.com" } []).1 (by decide),
   (owner_member_invariant exampleSlug memoryStore exampleState exampleTeam
      { Email := "d@x.com" } ["c@x.com", "a@x.com"]).2.1 (by decide),
   (owner_member_invariant exampleSlug memoryStore exampleState exampleTeam
      { Email := "d@x.com" } ["c@x.com", "a@x.com"]).2.2 (by decide)⟩

/-- C4, as stated, fails on a batch that names one new user twice: the list
grows by one entry, while two entries of the batch belong to an existing user
who is not a member before the call. -/
theorem addUsers_length_counterexample :
    (Team.AddUsers memoryStore exampleState
        { Name := "Acme", Alias := "acme", Users := ["a@x.com"], Owner := "a@x.com" }
        ["b@x.com", "b@x.com"]).team.Users = ["a@x.com", "b@x.com"]
      ∧ (Team.AddUsers memoryStore exampleState
          { Name := "Acme", Alias := "acme", Users := ["a@x.com"], Owner := "a@x.com" }
          ["b@x.com", "b@x.com"]).team.Users.length
        ≠ ["a@x.com"].length
            + (["b@x.com", "b@x.com"].filter
                (addable memoryStore exampleState ["a@x.com"])).length := by
  decide

/-- C4, amended: `AddUsers` appends to `Users` only emails of the batch that
belong to existing users, and the length of `Users` grows by the number of
distinct emails of the batch that belong to an existing user and are not a
member before the call. -/
theorem addUsers_effect {σ : Type} (st : Storable σ) (s : σ) (team : Team)
    (emails : List String) :
    (∃ added : List String,
        (team.AddUsers st s emails).team.Users = team.Users ++ added
          ∧ ∀ u ∈ added, u ∈ emails ∧ User.Exists st s { Email := u } = true)
      ∧ (team.AddUsers st s emails).team.Users.length
          = team.Users.length + ((emails.filter (addable st s team.Users)).dedup).length := by
  rw [addUsers_team]
  refine ⟨addLoop_appends st s emails team false, ?_⟩
  rw [addLoop_length, List.card_toFinset]

/-- C5: over a store in which a successful `UpsertTeam` makes `FindTeamByAlias`
of that team's alias succeed, for two teams with non-empty `Name` and equal
derived aliases, if `Create` of the first succeeds then `Create` of the second
returns `ValidationError(DuplicateEntry)` and leaves the store unchanged. -/
theorem create_duplicate_alias {σ : Type} (GenerateSlug : String → String) (st : Storable σ)
    (s : σ) (t1 t2 : Team) (o1 o2 : User)
    (hstore : ∀ s t, (st.UpsertTeam s t).1 = none →
      ∃ found, st.FindTeamByAlias (st.UpsertTeam s t).2 t.Alias = .ok found)
    (hn1 : t1.Name ≠ "") (hn2 : t2.Name ≠ "")
    (halias : derivedAlias GenerateSlug t1 = derivedAlias GenerateSlug t2)
    (hok : (t1.Create GenerateSlug st s o1).err = none) :
    (t2.Create GenerateSlug st (t1.Create GenerateSlug st s o1).store o2).err
        = some (.ValidationErrorNEW .ErrTeamDuplicateEntry)
      ∧ (t2.Create GenerateSlug st (t1.Create GenerateSlug st s o1).store o2).store
        = (t1.Create GenerateSlug st s o1).store := by
  have hv1 : t1.valid = true := by simp [Team.valid, hn1]
  have hv2 : t2.valid = true := by simp [Team.valid, hn2]
  -- the team the first call stores and the team the second call probes
  obtain ⟨u1, hu1, ha1⟩ : ∃ u1 : Team,
      t1.Create GenerateSlug st s o1
        = (if u1.Exists st s then
            ⟨some (.ValidationErrorNEW .ErrTeamDuplicateEntry), u1, s⟩
          else ⟨(st.UpsertTeam s u1).1, u1, (st.UpsertTeam s u1).2⟩)
      ∧ u1.Alias = derivedAlias GenerateSlug t1 := by
    unfold Team.Create derivedAlias
    simp only [hv1, Bool.not_true, Bool.false_eq_true, if_false]
    exact ⟨_, rfl, by split_ifs <;> rfl⟩
  rw [hu1] at hok ⊢
  by_cases hex : u1.Exists st s = true
  · simp [hex] at hok
  · simp only [hex, Bool.false_eq_true, if_false] at hok ⊢
    obtain ⟨found, hfound⟩ := hstore s u1 hok
    rw [ha1, halias] at hfound
    have hex2 : ∀ u2 : Team, u2.Alias = derivedAlias GenerateSlug t2 →
        u2.Exists st (st.UpsertTeam s u1).2 = true := by
      intro u2 h2
      simp [Team.Exists, h2, hfound]
    unfold Team.Create
    simp only [hv2, Bool.not_true, Bool.false_eq_true, if_false]
    rw [if_pos (hex2 _ (by unfold derivedAlias; split_ifs <;> rfl))]
    exact ⟨rfl, rfl⟩

theorem create_duplicate_alias_witness :
    (Team.Create exampleSlug memoryStore
        (Team.Create exampleSlug memoryStore exampleState
          { Name := "Acme Corp", Alias := "", Users := [], Owner := "" }
          { Email := "a@x.com" }).store
        { Name := "Other", Alias := "ACME corp", Users := [], Owner := "" }
        { Email := "b@x.com" }).err
      = some (.ValidationErrorNEW .ErrTeamDuplicateEntry) :=
  (create_duplicate_alias exampleSlug memoryStore exampleState
    { Name := "Acme Corp", Alias := "", Users := [], Owner := "" }
    { Name := "Other", Alias := "ACME corp", Users := [], Owner := "" }
    { Email := "a@x.com" } { Email := "b@x.com" }
    (fun s t _ => ⟨t, by simp [memoryStore]⟩)
    (by decide) (by decide) (by decide) (by decide)).1

/-- C6: `Delete` returns `ForbiddenError(OnlyOwnerHasPermission)` and leaves
the store as it was whenever the requester's Email differs from the team's
Owner, for every store; when they are equal it is the call of
`store.DeleteTeam` on the team, result and store alike. -/
theorem delete_authorization {σ : Type} (st : Storable σ) (s : σ) (team : Team)
    (requester : User) :
    (requester.Email ≠ team.Owner →
        team.Delete st s requester
          = (some (.ForbiddenErrorNEW .ErrOnlyOwnerHasPermission), s))
      ∧ (requester.Email = team.Owner → team.Delete st s requester = st.DeleteTeam s team) := by
  unfold Team.Delete
  constructor
  · intro h
    rw [if_pos (fun e => h e.symm)]
  · intro h
    rw [if_neg (fun e => e h.symm)]

theorem delete_authorization_witness :
    exampleTeam.Delete memoryStore { exampleState with teams := [exampleTeam] }
        { Email := "b@x.com" }
      = (some (.ForbiddenErrorNEW .ErrOnlyOwnerHasPermission),
          { exampleState with teams := [exampleTeam] })
      ∧ exampleTeam.Delete memoryStore { exampleState with teams := [exampleTeam] }
        { Email := "a@x.com" }
      = memoryStore.DeleteTeam { exampleState with teams := [exampleTeam] } exampleTeam :=
  ⟨(delete_authorization memoryStore { exampleState with teams := [exampleTeam] } exampleTeam
      { Email := "b@x.com" }).1 (by decide),
   (delete_authorization memoryStore { exampleState with teams := [exampleTeam] } exampleTeam
      { Email := "a@x.com" }).2 (by decide)⟩

/-- C7: for an authenticated requester, `DeleteService` answers a subdomain
that does not exist and a subdomain whose service is owned by someone else
with the same response, `Forbidden` carrying the text of `ErrServiceNotFound`,
and leaves the store unchanged in both cases. -/
theorem deleteService_no_existence_leak {ε σ : Type} (handler : ServicesHandler ε)
    (st : Storable σ) (s : σ) (absent existing : C ε) (currentUser : User) (err : Error)
    (service : Service)
    (hauth1 : handler.getCurrentUser absent = .ok currentUser)
    (hauth2 : handler.getCurrentUser existing = .ok currentUser)
    (habsent : st.FindServiceBySubdomain s (absent.URLParams "subdomain") = .error err)
    (hfound : st.FindServiceBySubdomain s (existing.URLParams "subdomain") = .ok service)
    (hother : service.Owner ≠ currentUser.Email) :
    (handler.DeleteService st s absent).1 = (handler.DeleteService st s existing).1
      ∧ (handler.DeleteService st s absent).1
          = .Forbidden handler.E_FORBIDDEN_REQUEST (handler.valueText .ErrServiceNotFound)
      ∧ (handler.DeleteService st s absent).2 = s
      ∧ (handler.DeleteService st s existing).2 = s := by
  simp [ServicesHandler.DeleteService, FindServiceBySubdomain, hauth1, hauth2, habsent, hfound,
    hother]

theorem deleteService_no_existence_leak_witness :
    (exampleHandler.DeleteService memoryStore exampleState
        (exampleRequest { Email := "a@x.com" } "ghost")).1
      = (exampleHandler.DeleteService memoryStore exampleState
        (exampleRequest { Email := "a@x.com" } "billing")).1 :=
  (deleteService_no_existence_leak exampleHandler memoryStore exampleState
    (exampleRequest { Email := "a@x.com" } "ghost")
    (exampleRequest { Email := "a@x.com" } "billing")
    { Email := "a@x.com" } (.NotFoundErrorNEW .ErrServiceNotFound)
    { Subdomain := "billing", Team := "acme", Owner := "b@x.com" }
    rfl rfl (by simp [memoryStore, exampleState, exampleRequest])
    (by simp [memoryStore, exampleState, exampleRequest]) (by decide)).1

/-- C8: over the map registry whose `Put` succeeds, for two specs with the same
`Handle` that both marshal, publishing the first and then the second returns
no error either time and leaves the registry holding the marshalled second
spec under that `Handle` and every other key as it was; publishing one spec
twice yields the registry that publishing it once yields. -/
theorem publish_last_write_wins {α : Type} (marshal : ServiceSpec α → Except Error (List Nat))
    (registry : Registry) (first second : ServiceSpec α) (b1 b2 : List Nat)
    (hhandle : first.Handle = second.Handle)
    (hm1 : marshal first = .ok b1) (hm2 : marshal second = .ok b2) :
    (Publisher.Publish marshal mapClient registry first).1 = none
      ∧ (Publisher.Publish marshal mapClient
          (Publisher.Publish marshal mapClient registry first).2 second).1 = none
      ∧ (Publisher.Publish marshal mapClient
          (Publisher.Publish marshal mapClient registry first).2 second).2 second.Handle
          = some b2
      ∧ (∀ k, k ≠ second.Handle →
          (Publisher.Publish marshal mapClient
            (Publisher.Publish marshal mapClient registry first).2 second).2 k = registry k)
      ∧ (Publisher.Publish marshal mapClient
          (Publisher.Publish marshal mapClient registry first).2 first).2
          = (Publisher.Publish marshal mapClient registry first).2 := by
  simp only [Publisher.Publish, hm1, hm2, mapClient, hhandle]
  refine ⟨trivial, trivial, by simp, fun k hk => by simp [hk], ?_⟩
  funext k
  by_cases hk : k = second.Handle <;> simp [hk]

theorem publish_last_write_wins_witness :
    (Publisher.Publish exampleMarshal mapClient
        (Publisher.Publish exampleMarshal mapClient (fun _ => none)
          { Handle := "billing", Rest := [1] }).2
        { Handle := "billing", Rest := [2, 3] }).2 "billing"
      = some ("billing".data.map Char.toNat ++ [2, 3]) :=
  (publish_last_write_wins exampleMarshal (fun _ => none)
    { Handle := "billing", Rest := [1] } { Handle := "billing", Rest := [2, 3] }
    _ _ rfl rfl rfl).2.2.1

/-- C9, as stated, fails on a team that already lists a member: `Create`
appends the owner, so the owner is not the sole member afterwards. -/
theorem create_sole_member_counterexample :
    Team.valid { Name := "Acme", Alias := "", Users := ["x@x.com"], Owner := "" } = true
      ∧ (Team.Create exampleSlug memoryStore exampleState
          { Name := "Acme", Alias := "", Users := ["x@x.com"], Owner := "" }
          { Email := "a@x.com" }).err = none
      ∧ (Team.Create exampleSlug memoryStore exampleState
          { Name := "Acme", Alias := "", Users := ["x@x.com"], Owner := "" }
          { Email := "a@x.com" }).team.Users = ["x@x.com", "a@x.com"]
      ∧ (Team.Create exampleSlug memoryStore exampleState
          { Name := "Acme", Alias := "", Users := ["x@x.com"], Owner := "" }
          { Email := "a@x.com" }).team.Users ≠ ["a@x.com"] := by
  decide

/-- C9, amended: for every team that passes validation and every owner, after
`Create` the team's Owner equals `owner.Email` and the team's `Users` list is
the list before the call followed by `owner.Email`; it consists of exactly
`owner.Email` when the list was empty before the call. -/
theorem create_owner_appended {σ : Type} (GenerateSlug : String → String) (st : Storable σ)
    (s : σ) (team : Team) (owner : User) (hvalid : team.valid = true) :
    (team.Create GenerateSlug st s owner).team.Owner = owner.Email
      ∧ (team.Create GenerateSlug st s owner).team.Users = team.Users ++ [owner.Email]
      ∧ (team.Users = [] → (team.Create GenerateSlug st s owner).team.Users = [owner.Email]) := by
  unfold Team.Create
  simp only [hvalid, Bool.not_true, Bool.false_eq_true, if_false]
  refine ⟨by split_ifs <;> rfl, by split_ifs <;> rfl, fun h => ?_⟩
  split_ifs <;> simp [h]

theorem create_owner_appended_witness :
    (Team.Create exampleSlug memoryStore exampleState
        { Name := "Acme", Alias := "", Users := [], Owner := "" }
        { Email := "a@x.com" }).team.Users = ["a@x.com"] :=
  (create_owner_appended exampleSlug memoryStore exampleState
    { Name := "Acme", Alias := "", Users := [], Owner := "" } { Email := "a@x.com" }
    (by decide)).2.2 rfl

/-- C10 at a token that expires in one minute: `CreateToken` sets sixty
thousand million nanoseconds on the record under the composite key and one
nanosecond on the record under the raw token. -/
theorem createToken_ttl_mismatch :
    cacheTTL "user: a@x.com"
        (Mongore.CreateToken
          { Token := "tok", TokenType := "user", User := { Email := "a@x.com" }, Expires := 1 })
        = some 60000000000
      ∧ cacheTTL "tok"
        (Mongore.CreateToken
          { Token := "tok", TokenType := "user", User := { Email := "a@x.com" }, Expires := 1 })
        = some 1 := by
  decide

end Apihub
